import Mathlib

/-!
Verification development for the mediParser repository.

The repository's frontend (Next.js route handler, upload page and
results-table component) is embedded directly from the TypeScript
sources under src/.  The detection-to-record reconstruction pipeline
(normalizer, row grouper, multi-strategy field mapper, range evaluator,
assembler) lives in the Python backend, which is not part of src/; those
definitions are modelled from the specification (spec.md sections 3, 4
and 6) and are marked as such in their doc comments.

Numbers are modelled as rationals: pixel coordinates, detector
confidences and parsed lab values are all exact decimal data here, so ℚ
is a faithful executable model.
-/

namespace MediParser

/-- JSON values; used to state response-shape properties of the API. -/
inductive Json where
  | str (s : String)
  | num (q : ℚ)
  | bool (b : Bool)
  | arr (elems : List Json)
  | obj (fields : List (String × Json))

/-- Modelled from the spec (section 3): the field-type label attached to a
detection by the external object detector. -/
inductive FieldType where
  | testName
  | testValue
  | unitLabel
  | referenceRange
  | unknown
deriving DecidableEq, Repr

/-- Modelled from the spec (section 3): one recognized region on the page,
with its axis-aligned box, field-type label, OCR text and detector
confidence. -/
structure Detection where
  xMin : ℚ
  yMin : ℚ
  xMax : ℚ
  yMax : ℚ
  fieldType : FieldType
  text : String
  confidence : ℚ
deriving DecidableEq, Repr

/-- Vertical center of a detection's box. -/
def yCenter (d : Detection) : ℚ := (d.yMin + d.yMax) / 2

/-- Height of a detection's box. -/
def detHeight (d : Detection) : ℚ := d.yMax - d.yMin

/-- Modelled from the spec (section 3): a detection is well formed when its
box satisfies y_min < y_max and x_min < x_max. -/
def wellFormedDet (d : Detection) : Bool :=
  decide (d.yMin < d.yMax) && decide (d.xMin < d.xMax)

/-- Final output unit, with the exact field names of the LabResult
interface in src/app/page.tsx. -/
structure LabResult where
  test_name : String
  test_value : String
  bio_reference_range : String
  test_unit : String
  lab_test_out_of_range : Bool
deriving DecidableEq, Repr

/-! ### Detection normalizer (modelled from the spec, section 4.1) -/

/-- Modelled from the spec (4.1): clamp a detection's confidence to [0,1]. -/
def clampConf (d : Detection) : Detection :=
  { d with confidence := max 0 (min d.confidence 1) }

/-- Modelled from the spec (4.1): a detection is kept unless it has empty
text and an Unknown field type. -/
def keepDet (d : Detection) : Bool :=
  !(decide (d.text = "") && decide (d.fieldType = FieldType.unknown))

/-- Modelled from the spec (4.1): the cleaning pass of the normalizer. -/
def normalizeList (l : List Detection) : List Detection :=
  (l.filter keepDet).map clampConf

/-- Modelled from the spec (4.1): the normalizer fails with InvalidInput
exactly when the raw list is not a list of well-formed detections; an
empty valid list is not an error. -/
def normalize (l : List Detection) : Except String (List Detection) :=
  if l.all wellFormedDet then Except.ok (normalizeList l) else Except.error "InvalidInput"

/-! ### Numeric and range parsing (modelled from the spec, section 4.4) -/

/-- Value of a run of decimal digit characters. -/
def digitsToNat (l : List Char) : Nat :=
  l.foldl (fun n c => 10 * n + (c.toNat - 48)) 0

/-- Rational value of an integer part and a fractional part, both given as
digit runs. -/
def ratOfParts (ip fp : List Char) : ℚ :=
  (digitsToNat ip : ℚ) + (digitsToNat fp : ℚ) / ((10 : ℚ) ^ fp.length)

/-- Split a character list at the leading numeric-with-optional-decimal
run: digits, then optionally a dot and more digits. -/
def numRunSplit (l : List Char) : List Char × List Char :=
  let s := l.span Char.isDigit
  match s.2 with
  | '.' :: r2 => (s.1, (r2.span Char.isDigit).1)
  | _ => (s.1, [])

/-- First numeric substring of a character list, as a rational. -/
def firstNum : List Char → Option ℚ
  | [] => none
  | c :: t =>
    if c.isDigit then
      some (ratOfParts (numRunSplit (c :: t)).1 (numRunSplit (c :: t)).2)
    else firstNum t

/-- Modelled from the spec (4.4): parse a test-value string by taking its
first valid numeric substring; none when no numeric substring exists. -/
def parseValue (s : String) : Option ℚ := firstNum s.toList

/-- Token test for the numeric-with-optional-decimal pattern of 4.3(b). -/
def isNumTok (s : String) : Bool :=
  let l := s.toList
  !l.isEmpty && l.all (fun c => c.isDigit || c == '.') &&
    decide (l.count '.' ≤ 1) && l.any Char.isDigit

/-- Split a character list at the first dot, dropping the dot. -/
def splitAtDot (l : List Char) : List Char × List Char :=
  let p := l.span (fun c => !(c == '.'))
  match p.2 with
  | _ :: fp => (p.1, fp)
  | [] => (p.1, [])

/-- Parse a string that is entirely one numeric token. -/
def parseNumStr (s : String) : Option ℚ :=
  if isNumTok s then
    some (ratOfParts (splitAtDot s.toList).1 (splitAtDot s.toList).2)
  else none

/-- Modelled from the spec (4.4): the result of parsing a reference-range
string. -/
inductive RefRange where
  | between (lo hi : ℚ)
  | below (t : ℚ)
  | above (t : ℚ)
  | unparsed
deriving DecidableEq, Repr

/-- Modelled from the spec (4.4): parse a bio_reference_range string by
trying, in order, the low-high form, the upper-bound-only form and the
lower-bound-only form; anything else is unparseable. -/
def parseRange (s : String) : RefRange :=
  let t := s.trim
  if t.startsWith "<" then
    match parseNumStr ((t.drop 1).trim) with
    | some x => RefRange.below x
    | none => RefRange.unparsed
  else if t.startsWith ">" then
    match parseNumStr ((t.drop 1).trim) with
    | some x => RefRange.above x
    | none => RefRange.unparsed
  else
    match t.splitOn "-" with
    | [a, b] =>
      match parseNumStr a.trim, parseNumStr b.trim with
      | some lo, some hi => RefRange.between lo hi
      | _, _ => RefRange.unparsed
    | _ => RefRange.unparsed

/-- Modelled from the spec (4.4): the range evaluator; the flag is true
exactly when the parsed value is strictly outside the resolved bounds,
and defaults to false whenever numeric or range parsing fails. -/
def evalOutOfRange (valueStr rangeStr : String) : Bool :=
  match parseValue valueStr with
  | none => false
  | some x =>
    match parseRange rangeStr with
    | RefRange.between lo hi => decide (x < lo) || decide (hi < x)
    | RefRange.below t => decide (t < x)
    | RefRange.above t => decide (x < t)
    | RefRange.unparsed => false

/-! ### Row grouper (modelled from the spec, section 4.2) -/

/-- Ordering of detections by vertical center, used for the grouping sort. -/
def yLe (a b : Detection) : Prop := yCenter a ≤ yCenter b

/-- Ordering of detections by left edge, used for in-row reading order. -/
def xLe (a b : Detection) : Prop := a.xMin ≤ b.xMin

instance : DecidableRel yLe := fun a b => inferInstanceAs (Decidable (yCenter a ≤ yCenter b))

instance : DecidableRel xLe := fun a b => inferInstanceAs (Decidable (a.xMin ≤ b.xMin))

instance : IsTotal Detection yLe := ⟨fun a b => le_total (yCenter a) (yCenter b)⟩

instance : IsTrans Detection yLe := ⟨fun _ _ _ h1 h2 => le_trans h1 h2⟩

/-- Modelled from the spec (4.2): median of the detection heights, read off
a sorted copy of the height list. -/
def medianHeight (l : List Detection) : ℚ :=
  let hs := List.insertionSort (fun a b : ℚ => a ≤ b) (l.map detHeight)
  (hs.getD ((hs.length - 1) / 2) 0 + hs.getD (hs.length / 2) 0) / 2

/-- Tunable configuration of the pipeline: the median fraction and the
fixed pixel minimum that determine the row-grouping tolerance. -/
structure Config where
  medianFrac : ℚ
  tMin : ℚ
deriving DecidableEq, Repr

/-- Modelled from the spec (4.2): the grouping tolerance, a fraction of the
median detection height with a fixed minimum in pixels. -/
def tol (cfg : Config) (l : List Detection) : ℚ :=
  max (cfg.medianFrac * medianHeight l) cfg.tMin

/-- Modelled from the spec (4.2): the sweep over the sorted detections.
The open row is kept as its members (most recent first) together with the
current y-span; a detection joins the open row when its vertical center
lies within the span extended by the tolerance, and otherwise closes the
row and opens a new one. -/
def sweepGo (T : ℚ) (cur : List Detection) (lo hi : ℚ) : List Detection → List (List Detection)
  | [] => [cur.reverse]
  | d :: ds =>
    if lo - T ≤ yCenter d ∧ yCenter d ≤ hi + T then
      sweepGo T (d :: cur) (min lo d.yMin) (max hi d.yMax) ds
    else
      cur.reverse :: sweepGo T [d] d.yMin d.yMax ds

/-- Modelled from the spec (4.2): run the sweep, opening the first row with
the first detection; an empty list yields zero rows. -/
def sweep (T : ℚ) : List Detection → List (List Detection)
  | [] => []
  | d :: ds => sweepGo T [d] d.yMin d.yMax ds

/-- Modelled from the spec (4.2): sort detections by vertical center, sweep
them into rows, and order each row left-to-right by x_min. -/
def groupRows (cfg : Config) (l : List Detection) : List (List Detection) :=
  (sweep (tol cfg l) (List.insertionSort yLe l)).map (List.insertionSort xLe)

/-- Modelled from the spec (section 3): a row's y_center is the mean of its
members' vertical centers. -/
def rowYCenter (r : List Detection) : ℚ := (r.map yCenter).sum / r.length

/-! ### Field mapper (modelled from the spec, section 4.3) -/

/-- Concatenate detection texts with single spaces, in list order. -/
def joinTexts (ds : List Detection) : String :=
  String.intercalate " " (ds.map Detection.text)

/-- Modelled from the spec (4.3(b)): the reconstructed row text. -/
def rowText (row : List Detection) : String := joinTexts row

/-- Whitespace tokens of the reconstructed row text. -/
def tokensOf (row : List Detection) : List String :=
  ((rowText row).splitOn " ").filter (fun s => !s.isEmpty)

/-- Modelled from the spec (section 3): one strategy's proposed record for
a row, with its confidence. -/
structure Candidate where
  name : String
  value : String
  unit : String
  range : String
  conf : ℚ
deriving DecidableEq, Repr

/-- Mean detector confidence of a list of detections. -/
def meanConf (ds : List Detection) : ℚ :=
  (ds.map Detection.confidence).sum / ds.length

/-- Detections of a row labeled with a given field type, in row order. -/
def labeled (ft : FieldType) (row : List Detection) : List Detection :=
  row.filter (fun d => d.fieldType == ft)

/-- Modelled from the spec (4.3(a)): the label-direct strategy.  It applies
when the row's field types cover TestName and TestValue at minimum; each
labeled field is the space-joined text of its detections in x-order and
the confidence is the mean confidence of the contributing detections. -/
def stratA (row : List Detection) : Option Candidate :=
  let names := labeled FieldType.testName row
  let vals := labeled FieldType.testValue row
  if names.isEmpty || vals.isEmpty then none
  else
    let contributing := row.filter (fun d => d.fieldType != FieldType.unknown)
    some { name := joinTexts names, value := joinTexts vals,
           unit := joinTexts (labeled FieldType.unitLabel row),
           range := joinTexts (labeled FieldType.referenceRange row),
           conf := meanConf contributing }

/-- Token test for the range patterns of 4.3(b). -/
def isRangeTok (s : String) : Bool := decide (parseRange s ≠ RefRange.unparsed)

/-- Token test for a short alphabetic/symbol unit token. -/
def isUnitTok (s : String) : Bool :=
  !s.isEmpty && decide (s.length ≤ 8) &&
    s.toList.all (fun c => c.isAlpha || c == '/' || c == '%') && !isRangeTok s

/-- Split a token list at its first numeric token, returning the tokens
before it, the numeric token, and the tokens after it. -/
def splitFirstNum : List String → Option (List String × String × List String)
  | [] => none
  | t :: ts =>
    if isNumTok t then some ([], t, ts)
    else
      match splitFirstNum ts with
      | some (pre, v, post) => some (t :: pre, v, post)
      | none => none

/-- Fixed base confidence of strategy (b), below strategy (a)'s tier. -/
def bBaseConf : ℚ := 1 / 2

/-- Confidence bonus of strategy (b) when all four fields resolved. -/
def bBonus : ℚ := 1 / 10

/-- Fixed confidence of the dictionary-backed fallback strategy (c). -/
def cConf : ℚ := 3 / 10

/-- Modelled from the spec (4.3(b)): the reconstructed-row-text strategy.
The value is the first numeric token; everything before it is the name, a
recognizable range pattern after it is the range, and a short alphabetic
token immediately following the value is the unit. -/
def stratB (row : List Detection) : Option Candidate :=
  match splitFirstNum (tokensOf row) with
  | none => none
  | some (pre, v, post) =>
    let name := String.intercalate " " pre
    let range := (post.find? isRangeTok).getD ""
    let unitStr :=
      match post with
      | u :: _ => if isUnitTok u then u else ""
      | [] => ""
    let allFour := !name.isEmpty && !v.isEmpty && !unitStr.isEmpty && !range.isEmpty
    some { name := name, value := v, unit := unitStr, range := range,
           conf := bBaseConf + if allFour then bBonus else 0 }

/-- Maximal alphabetic runs of a character list, with the accumulator
holding the current run reversed. -/
def alphaRunsGo (acc : List Char) : List Char → List (List Char)
  | [] => if acc.isEmpty then [] else [acc.reverse]
  | c :: t =>
    if c.isAlpha then alphaRunsGo (c :: acc) t
    else if acc.isEmpty then alphaRunsGo [] t
    else acc.reverse :: alphaRunsGo [] t

/-- First longest element of a list of runs. -/
def longestRun (rs : List (List Char)) : List Char :=
  rs.foldl (fun best r => if r.length > best.length then r else best) []

/-- Modelled from the spec (4.3(c)): the dictionary-backed fallback.  The
reference dictionary is an external lookup collaborator, modelled as a
lookup function; the longest alphabetic run of the row text is looked up,
the first numeric token is the value, the unit stays empty, and the range
is a trailing range pattern when present. -/
def stratC (dictLookup : String → Option String) (row : List Detection) : Option Candidate :=
  let runs := alphaRunsGo [] (rowText row).toList
  match dictLookup (String.mk (longestRun runs)) with
  | none => none
  | some matchedName =>
    let ts := tokensOf row
    let v := (ts.find? isNumTok).getD ""
    let range :=
      match ts.getLast? with
      | some t => if isRangeTok t then t else ""
      | none => ""
    some { name := matchedName, value := v, unit := "", range := range, conf := cConf }

/-- Modelled from the spec (4.3 selection policy): a candidate is usable
when both required fields are non-empty. -/
def usable (c : Candidate) : Bool := !c.name.isEmpty && !c.value.isEmpty

/-- Highest-confidence element of a candidate list, earliest on ties, so
that list order encodes strategy priority. -/
def pickBest : List Candidate → Option Candidate
  | [] => none
  | c :: cs =>
    match pickBest cs with
    | none => some c
    | some d => some (if d.conf > c.conf then d else c)

/-- Modelled from the spec (4.3 selection policy): choose the best usable
candidate of strategies (a) and (b); strategy (c) runs only when neither
produced a usable name and value pair. -/
def resolveRow (dictLookup : String → Option String) (row : List Detection) : Option Candidate :=
  match pickBest (((stratA row).toList ++ (stratB row).toList).filter usable) with
  | some c => some c
  | none => pickBest (((stratC dictLookup row).toList).filter usable)

/-- Modelled from the spec (4.3, 4.4): build the final record from a chosen
candidate, defaulting unit and range to the empty string and computing
the out-of-range flag with the range evaluator. -/
def mkRecord (c : Candidate) : LabResult :=
  { test_name := c.name, test_value := c.value, test_unit := c.unit,
    bio_reference_range := c.range,
    lab_test_out_of_range := evalOutOfRange c.value c.range }

/-- Record produced for one row, if any. -/
def recordOfRow (dictLookup : String → Option String) (row : List Detection) : Option LabResult :=
  (resolveRow dictLookup row).map mkRecord

/-- Modelled from the spec (sections 2, 4.5): the core pipeline on an
already-validated detection list: group rows, resolve each row, drop
unresolvable rows, keep row order. -/
def pipelineOnValid (cfg : Config) (dictLookup : String → Option String)
    (l : List Detection) : List LabResult :=
  (groupRows cfg l).filterMap (recordOfRow dictLookup)

/-! ### Response encoding and API route

The JSON encoding of a record follows the response shape of spec
section 6 and src/README.md; the success envelope carries is_success,
data and pdf_path, the fields read back by handleUpload in
src/app/page.tsx. -/

/-- Field names of the output contract, in encoding order. -/
def recordKeys : List String :=
  ["test_name", "test_value", "bio_reference_range", "test_unit", "lab_test_out_of_range"]

/-- JSON encoding of one record, with the exact output field names. -/
def encodeRecord (r : LabResult) : Json :=
  Json.obj [("test_name", Json.str r.test_name),
            ("test_value", Json.str r.test_value),
            ("bio_reference_range", Json.str r.bio_reference_range),
            ("test_unit", Json.str r.test_unit),
            ("lab_test_out_of_range", Json.bool r.lab_test_out_of_range)]

/-- JSON encoding of the ordered record list. -/
def encodeRecords (rs : List LabResult) : Json := Json.arr (rs.map encodeRecord)

/-- Key list of a JSON object. -/
def objKeys : Json → List String
  | Json.obj fields => fields.map Prod.fst
  | _ => []

/-- Field lookup in a JSON object. -/
def lookupField (j : Json) (k : String) : Option Json :=
  match j with
  | Json.obj fields => (fields.find? (fun f => f.1 == k)).map Prod.snd
  | _ => none

/-- Modelled from the spec: the uploaded image, represented by the
detection list the external detector and OCR produce for it; the
detector itself is out of scope. -/
structure UploadedFile where
  detections : List Detection
deriving DecidableEq

/-- Result of the Next.js route handler: an error response with a status
code, or a success response with a JSON body. -/
inductive RouteResponse where
  | err (status : Nat) (msg : String)
  | ok (body : Json)

/-- Whether a route response is an error. -/
def RouteResponse.isErr : RouteResponse → Bool
  | RouteResponse.err _ _ => true
  | RouteResponse.ok _ => false

/-- Success envelope of the backend response, as consumed by handleUpload
in src/app/page.tsx (is_success, data, pdf_path). -/
def successBody (pdfPath : String) (recs : List LabResult) : Json :=
  Json.obj [("is_success", Json.bool true),
            ("data", encodeRecords recs),
            ("pdf_path", Json.str pdfPath)]

/-- Modelled from the spec: the backend extraction behind the route;
normalize the detections, then run the core pipeline on the valid list. -/
def backendExtract (cfg : Config) (dictLookup : String → Option String)
    (f : UploadedFile) : Except String (List LabResult) :=
  (normalize f.detections).map (pipelineOnValid cfg dictLookup)

/-- The POST handler of src/app/api/extract-lab-tests/route.ts: reject
when the file or the patient name form field is absent or (for the
patient name, by JavaScript falsiness of the empty string) empty,
otherwise forward to the backend and relay its response body. -/
def routePOST (cfg : Config) (dictLookup : String → Option String) (pdfPath : String)
    (fileField : Option UploadedFile) (patientField : Option String) : RouteResponse :=
  match fileField, patientField with
  | some f, some p =>
    if p = "" then RouteResponse.err 400 "Missing file or patient name"
    else
      match backendExtract cfg dictLookup f with
      | Except.ok recs => RouteResponse.ok (successBody pdfPath recs)
      | Except.error e => RouteResponse.err 400 e
  | _, _ => RouteResponse.err 400 "Missing file or patient name"

/-- Two runs of the whole extraction on the same detection list, producing
the encoded response payload each time. -/
def runExtractionTwice (cfg : Config) (dictLookup : String → Option String)
    (l : List Detection) : Json × Json :=
  (encodeRecords (pipelineOnValid cfg dictLookup l),
   encodeRecords (pipelineOnValid cfg dictLookup l))

/-! ### Results table (ResultsTable in src/components/image-preview.tsx) -/

/-- Contiguous-subsequence test on character lists, mirroring
String.prototype.includes. -/
def containsSeq (needle : List Char) : List Char → Bool
  | [] => needle.isEmpty
  | c :: t => needle.isPrefixOf (c :: t) || containsSeq needle t

/-- The search predicate of ResultsTable: case-insensitive containment of
the search term in the test name or the test value. -/
def matchesSearch (searchTerm : String) (r : LabResult) : Bool :=
  containsSeq searchTerm.toLower.toList r.test_name.toLower.toList ||
    containsSeq searchTerm.toLower.toList r.test_value.toLower.toList

/-- Sortable columns of ResultsTable. -/
inductive SortField where
  | test_name
  | test_value
  | bio_reference_range
  | test_unit
  | lab_test_out_of_range
deriving DecidableEq, Repr

/-- Sort directions of ResultsTable. -/
inductive SortDir where
  | asc
  | desc
deriving DecidableEq, Repr

/-- String value of a sortable column. -/
def fieldStr (f : SortField) (r : LabResult) : String :=
  match f with
  | SortField.test_name => r.test_name
  | SortField.test_value => r.test_value
  | SortField.bio_reference_range => r.bio_reference_range
  | SortField.test_unit => r.test_unit
  | SortField.lab_test_out_of_range => ""

/-- The ResultsTable sort comparator; string columns compare through the
environment's localeCompare, modelled as the parameter lc, and the
boolean column uses the explicit comparator from the source. -/
def jsCompare (lc : String → String → Int) (f : SortField) (dir : SortDir)
    (a b : LabResult) : Int :=
  match f with
  | SortField.lab_test_out_of_range =>
    match dir with
    | SortDir.asc =>
      if a.lab_test_out_of_range = b.lab_test_out_of_range then 0
      else if a.lab_test_out_of_range then 1 else -1
    | SortDir.desc =>
      if a.lab_test_out_of_range = b.lab_test_out_of_range then 0
      else if a.lab_test_out_of_range then -1 else 1
  | _ =>
    match dir with
    | SortDir.asc => lc (fieldStr f a) (fieldStr f b)
    | SortDir.desc => -(lc (fieldStr f a) (fieldStr f b))

/-- Comparator-induced order used by the stable sort. -/
def sortLe (lc : String → String → Int) (f : SortField) (dir : SortDir)
    (a b : LabResult) : Prop := jsCompare lc f dir a b ≤ 0

instance (lc : String → String → Int) (f : SortField) (dir : SortDir) :
    DecidableRel (sortLe lc f dir) :=
  fun a b => inferInstanceAs (Decidable (jsCompare lc f dir a b ≤ 0))

/-- The processedData memo of ResultsTable: filter by the search term,
then, only when both a sort field and a sort direction are selected,
stable-sort by the comparator. -/
def processedData (lc : String → String → Int) (data : List LabResult)
    (searchTerm : String) (sortField : Option SortField) (sortDir : Option SortDir) :
    List LabResult :=
  let filtered := data.filter (matchesSearch searchTerm)
  match sortField, sortDir with
  | some f, some dir => List.insertionSort (sortLe lc f dir) filtered
  | _, _ => filtered

/-- The normalCount of ResultsTable, counted over the full data set. -/
def normalCount (data : List LabResult) : Nat :=
  (data.filter (fun r => !r.lab_test_out_of_range)).length

/-- The outOfRangeCount of ResultsTable, counted over the full data set. -/
def outOfRangeCount (data : List LabResult) : Nat :=
  (data.filter (fun r => r.lab_test_out_of_range)).length

/-- Status badge text of a table row. -/
def badgeText (r : LabResult) : String :=
  if r.lab_test_out_of_range then "Out of Range" else "Normal"

/-- CSV-quote a field as the source does. -/
def csvQuote (s : String) : String := "\"" ++ s ++ "\""

/-- The five quoted cells of one exported CSV row, Status last. -/
def csvFields (r : LabResult) : List String :=
  [csvQuote r.test_name, csvQuote r.test_value, csvQuote r.bio_reference_range,
   csvQuote r.test_unit, csvQuote (badgeText r)]

/-- One exported CSV row. -/
def csvRow (r : LabResult) : String := String.intercalate "," (csvFields r)

/-- The exported CSV header line. -/
def csvHeader : String :=
  String.intercalate "," ["Test Name", "Value", "Reference Range", "Unit", "Status"]

/-- The line list built by exportToCSV: the header, then one row per
currently displayed record. -/
def csvLines (lc : String → String → Int) (data : List LabResult) (searchTerm : String)
    (sortField : Option SortField) (sortDir : Option SortDir) : List String :=
  csvHeader :: (processedData lc data searchTerm sortField sortDir).map csvRow

/-- The exported CSV content, the lines joined with newlines. -/
def exportToCSV (lc : String → String → Int) (data : List LabResult) (searchTerm : String)
    (sortField : Option SortField) (sortDir : Option SortDir) : String :=
  String.intercalate "\n" (csvLines lc data searchTerm sortField sortDir)

/-! ### Image preview controls (ImagePreview in src/components/image-preview.tsx) -/

/-- User actions on the image preview controls. -/
inductive PreviewAction where
  | zoomIn
  | zoomOut
  | rotate
deriving DecidableEq, Repr

/-- One preview control step: zoom in caps at 3, zoom out floors at 0.5 in
steps of 0.25, rotation advances by 90 degrees modulo 360. -/
def stepPreview (s : ℚ × ℤ) (a : PreviewAction) : ℚ × ℤ :=
  match a with
  | PreviewAction.zoomIn => (min (s.1 + 1/4) 3, s.2)
  | PreviewAction.zoomOut => (max (s.1 - 1/4) (1/2), s.2)
  | PreviewAction.rotate => (s.1, (s.2 + 90) % 360)

/-- Run a sequence of preview actions from the initial state of zoom 1 and
rotation 0. -/
def runPreview (acts : List PreviewAction) : ℚ × ℤ :=
  acts.foldl stepPreview (1, 0)

/-! ### Concrete fixtures used by witness theorems -/

/-- All candidates the three strategies offer for a row, in priority
order. -/
def candidatesOf (dictLookup : String → Option String) (row : List Detection) :
    List Candidate :=
  (stratA row).toList ++ (stratB row).toList ++ (stratC dictLookup row).toList

/-- A concrete tolerance configuration. -/
def cfg0 : Config := { medianFrac := 1 / 2, tMin := 5 }

/-- The empty reference dictionary. -/
def dictNone : String → Option String := fun _ => none

/-- A trivial localeCompare model. -/
def lcZero : String → String → Int := fun _ _ => 0

/-- Scenario-1 detection: the labeled test name. -/
def det1 : Detection :=
  { xMin := 0, yMin := 0, xMax := 10, yMax := 10,
    fieldType := FieldType.testName, text := "Hemoglobin", confidence := 9 / 10 }

/-- Scenario-1 detection: the labeled test value. -/
def det2 : Detection :=
  { xMin := 12, yMin := 0, xMax := 20, yMax := 10,
    fieldType := FieldType.testValue, text := "15.3", confidence := 9 / 10 }

/-- Scenario-1 detection: the labeled unit. -/
def det3 : Detection :=
  { xMin := 22, yMin := 1, xMax := 30, yMax := 9,
    fieldType := FieldType.unitLabel, text := "g/dl", confidence := 8 / 10 }

/-- Scenario-1 detection: the labeled reference range. -/
def det4 : Detection :=
  { xMin := 32, yMin := 0, xMax := 44, yMax := 10,
    fieldType := FieldType.referenceRange, text := "11.1-14.4", confidence := 8 / 10 }

/-- The scenario-1 detection list. -/
def dets0 : List Detection := [det1, det2, det3, det4]

/-- The scenario-1 uploaded file. -/
def file0 : UploadedFile := { detections := dets0 }

/-- The scenario-1 output record. -/
def rec0 : LabResult :=
  { test_name := "Hemoglobin", test_value := "15.3",
    bio_reference_range := "11.1-14.4", test_unit := "g/dl",
    lab_test_out_of_range := true }

/-- A second record, in range, for table fixtures. -/
def rec1 : LabResult :=
  { test_name := "Glucose", test_value := "90",
    bio_reference_range := "70-110", test_unit := "mg/dl",
    lab_test_out_of_range := false }

/-- A concrete record list for table fixtures. -/
def data0 : List LabResult := [rec0, rec1]

/-- Membership content of a row, forgetting order. -/
def rowMS (r : List Detection) : Multiset Detection := (r : Multiset Detection)

/-- Row r sits strictly above row r2: every member's center is smaller. -/
def rowBelow (r r2 : List Detection) : Prop :=
  ∀ a ∈ r, ∀ b ∈ r2, yCenter a < yCenter b

/-! ## Helper lemmas -/

theorem sweepGo_congr_cur (T : ℚ) {cur1 cur2 : List Detection} (hc : cur1.Perm cur2) :
    ∀ (l : List Detection) (lo hi : ℚ),
      (sweepGo T cur1 lo hi l).map rowMS = (sweepGo T cur2 lo hi l).map rowMS := by
  intro l
  induction l generalizing cur1 cur2 with
  | nil =>
    intro lo hi
    simp only [sweepGo, List.map_cons, List.map_nil]
    congr 1
    exact Multiset.coe_eq_coe.mpr
      (((List.reverse_perm cur1).trans hc).trans (List.reverse_perm cur2).symm)
  | cons d ds ih =>
    intro lo hi
    simp only [sweepGo]
    by_cases h : lo - T ≤ yCenter d ∧ yCenter d ≤ hi + T
    · rw [if_pos h, if_pos h]
      exact ih (hc.cons d) _ _
    · rw [if_neg h, if_neg h]
      simp only [List.map_cons]
      congr 1
      exact Multiset.coe_eq_coe.mpr
        (((List.reverse_perm cur1).trans hc).trans (List.reverse_perm cur2).symm)

theorem sweepGo_swap (T : ℚ) (hT : 0 ≤ T) {a b : Detection} (hab : yCenter a = yCenter b)
    (hwa : a.yMin ≤ a.yMax) (hwb : b.yMin ≤ b.yMax) (cur : List Detection) (lo hi : ℚ)
    (l : List Detection) :
    (sweepGo T cur lo hi (a :: b :: l)).map rowMS =
      (sweepGo T cur lo hi (b :: a :: l)).map rowMS := by
  have hya1 : a.yMin ≤ yCenter a := by unfold yCenter; linarith
  have hya2 : yCenter a ≤ a.yMax := by unfold yCenter; linarith
  have hyb1 : b.yMin ≤ yCenter b := by unfold yCenter; linarith
  have hyb2 : yCenter b ≤ b.yMax := by unfold yCenter; linarith
  simp only [sweepGo]
  by_cases h : lo - T ≤ yCenter a ∧ yCenter a ≤ hi + T
  · have hbj : lo - T ≤ yCenter b ∧ yCenter b ≤ hi + T := by rw [← hab]; exact h
    have h2 : min lo a.yMin - T ≤ yCenter b ∧ yCenter b ≤ max hi a.yMax + T := by
      constructor
      · have := min_le_left lo a.yMin
        rw [← hab]; linarith [h.1]
      · have := le_max_left hi a.yMax
        rw [← hab]; linarith [h.2]
    have h3 : min lo b.yMin - T ≤ yCenter a ∧ yCenter a ≤ max hi b.yMax + T := by
      constructor
      · have := min_le_left lo b.yMin
        rw [hab]; linarith [hbj.1]
      · have := le_max_left hi b.yMax
        rw [hab]; linarith [hbj.2]
    rw [if_pos h, if_pos hbj, if_pos h2, if_pos h3]
    have e1 : min (min lo a.yMin) b.yMin = min (min lo b.yMin) a.yMin := by
      rw [min_assoc, min_assoc, min_comm a.yMin b.yMin]
    have e2 : max (max hi a.yMax) b.yMax = max (max hi b.yMax) a.yMax := by
      rw [max_assoc, max_assoc, max_comm a.yMax b.yMax]
    rw [e1, e2]
    exact sweepGo_congr_cur T (List.Perm.swap a b cur) l _ _
  · have hbnj : ¬(lo - T ≤ yCenter b ∧ yCenter b ≤ hi + T) := by rw [← hab]; exact h
    have h2 : a.yMin - T ≤ yCenter b ∧ yCenter b ≤ a.yMax + T := by
      rw [← hab]; exact ⟨by linarith, by linarith⟩
    have h3 : b.yMin - T ≤ yCenter a ∧ yCenter a ≤ b.yMax + T := by
      rw [hab]; exact ⟨by linarith, by linarith⟩
    rw [if_neg h, if_neg hbnj, if_pos h2, if_pos h3]
    simp only [List.map_cons]
    congr 1
    rw [min_comm a.yMin b.yMin, max_comm a.yMax b.yMax]
    exact sweepGo_congr_cur T (List.Perm.swap a b []) l _ _

theorem sweepGo_tail_congr (T : ℚ) {t1 t2 : List Detection}
    (h : ∀ cur lo hi, (sweepGo T cur lo hi t1).map rowMS = (sweepGo T cur lo hi t2).map rowMS)
    (x : Detection) :
    ∀ cur lo hi,
      (sweepGo T cur lo hi (x :: t1)).map rowMS = (sweepGo T cur lo hi (x :: t2)).map rowMS := by
  intro cur lo hi
  simp only [sweepGo]
  by_cases hx : lo - T ≤ yCenter x ∧ yCenter x ≤ hi + T
  · rw [if_pos hx, if_pos hx]
    exact h _ _ _
  · rw [if_neg hx, if_neg hx]
    simp only [List.map_cons]
    rw [h _ _ _]

theorem length_filter_bool_split (data : List LabResult) :
    (data.filter (fun r => !r.lab_test_out_of_range)).length +
      (data.filter (fun r => r.lab_test_out_of_range)).length = data.length := by
  induction data with
  | nil => rfl
  | cons r t ih =>
    by_cases h : r.lab_test_out_of_range = true
    · simp [List.filter_cons, h, ← ih]; omega
    · simp at h
      simp [List.filter_cons, h, ← ih]; omega

theorem stepPreview_inv (s : ℚ × ℤ) (a : PreviewAction)
    (h : 1 / 2 ≤ s.1 ∧ s.1 ≤ 3 ∧ s.2 ∈ ([0, 90, 180, 270] : List ℤ)) :
    1 / 2 ≤ (stepPreview s a).1 ∧ (stepPreview s a).1 ≤ 3 ∧
      (stepPreview s a).2 ∈ ([0, 90, 180, 270] : List ℤ) := by
  obtain ⟨h1, h2, h3⟩ := h
  cases a with
  | zoomIn =>
    refine ⟨le_min (by linarith) (by norm_num), min_le_right _ _, h3⟩
  | zoomOut =>
    refine ⟨le_max_right _ _, max_le (by linarith) (by norm_num), h3⟩
  | rotate =>
    refine ⟨h1, h2, ?_⟩
    simp only [stepPreview]
    rcases (by simpa using h3 : s.2 = 0 ∨ s.2 = 90 ∨ s.2 = 180 ∨ s.2 = 270) with
      h | h | h | h <;> rw [h] <;> decide

theorem foldl_stepPreview_inv (acts : List PreviewAction) (s : ℚ × ℤ)
    (h : 1 / 2 ≤ s.1 ∧ s.1 ≤ 3 ∧ s.2 ∈ ([0, 90, 180, 270] : List ℤ)) :
    1 / 2 ≤ (acts.foldl stepPreview s).1 ∧ (acts.foldl stepPreview s).1 ≤ 3 ∧
      (acts.foldl stepPreview s).2 ∈ ([0, 90, 180, 270] : List ℤ) := by
  induction acts generalizing s with
  | nil => exact h
  | cons a t ih => exact ih _ (stepPreview_inv s a h)

theorem sweepGo_perm_sorted (T : ℚ) (hT : 0 ≤ T) :
    ∀ n : ℕ, ∀ l1 l2 : List Detection, l1.length ≤ n →
      l1.Sorted yLe → l2.Sorted yLe → l1.Perm l2 → (∀ d ∈ l1, d.yMin ≤ d.yMax) →
      ∀ cur lo hi,
        (sweepGo T cur lo hi l1).map rowMS = (sweepGo T cur lo hi l2).map rowMS := by
  intro n
  induction n with
  | zero =>
    intro l1 l2 hlen _ _ hp _ cur lo hi
    have h1 : l1 = [] := List.length_eq_zero.mp (Nat.le_zero.mp hlen)
    subst h1
    rw [hp.symm.eq_nil]
  | succ n ih =>
    intro l1 l2 hlen hs1 hs2 hp hwf cur lo hi
    cases l1 with
    | nil => rw [hp.symm.eq_nil]
    | cons a t1 =>
      cases l2 with
      | nil => exact absurd hp.eq_nil (by simp)
      | cons b t2 =>
        by_cases hab : a = b
        · subst hab
          have hpt : t1.Perm t2 := hp.cons_inv
          refine sweepGo_tail_congr T (fun cur lo hi => ?_) a cur lo hi
          exact ih t1 t2 (by simpa using hlen) hs1.of_cons hs2.of_cons hpt
            (fun d hd => hwf d (List.mem_cons_of_mem a hd)) cur lo hi
        · have hain : a ∈ t2 := by
            have h0 : a ∈ b :: t2 := hp.mem_iff.mp (List.mem_cons_self a t1)
            exact (List.mem_cons.mp h0).resolve_left hab
          have hbin : b ∈ t1 := by
            have h0 : b ∈ a :: t1 := hp.mem_iff.mpr (List.mem_cons_self b t2)
            exact (List.mem_cons.mp h0).resolve_left (fun e => hab e.symm)
          have hc : yCenter a = yCenter b :=
            le_antisymm (List.rel_of_sorted_cons hs1 b hbin)
              (List.rel_of_sorted_cons hs2 a hain)
          have hwa : a.yMin ≤ a.yMax := hwf a (List.mem_cons_self a t1)
          have hwb : b.yMin ≤ b.yMax := hwf b (List.mem_cons_of_mem a hbin)
          have hperm1 : t1.Perm (b :: t2.erase a) := by
            have h0 : ((a :: t1).erase a).Perm ((b :: t2).erase a) := hp.erase a
            rw [List.erase_cons_head] at h0
            rw [List.erase_cons_tail] at h0
            · exact h0
            · simp
              exact fun e => hab e.symm
          have hsub : List.Sublist (t2.erase a) t2 := List.erase_sublist a t2
          have hserase : (t2.erase a).Sorted yLe := hs2.of_cons.sublist hsub
          have hble : ∀ x ∈ t2.erase a, yLe b x := fun x hx =>
            List.rel_of_sorted_cons hs2 x (List.mem_of_mem_erase hx)
          have hsort2 : (b :: t2.erase a).Sorted yLe :=
            List.sorted_cons.mpr ⟨hble, hserase⟩
          have hsorta : (a :: t2.erase a).Sorted yLe := by
            refine List.sorted_cons.mpr ⟨?_, hserase⟩
            intro x hx
            exact le_trans (le_of_eq hc) (hble x hx)
          have hwf1 : ∀ d ∈ t1, d.yMin ≤ d.yMax :=
            fun d hd => hwf d (List.mem_cons_of_mem a hd)
          have hwf2 : ∀ d ∈ b :: t2.erase a, d.yMin ≤ d.yMax :=
            fun d hd => hwf1 d (hperm1.mem_iff.mpr hd)
          have hwfa : ∀ d ∈ a :: t2.erase a, d.yMin ≤ d.yMax := by
            intro d hd
            rcases List.mem_cons.mp hd with rfl | hd2
            · exact hwa
            · exact hwf2 d (List.mem_cons_of_mem b hd2)
          have hlent1 : t1.length ≤ n := by simpa using hlen
          have hlen2 : (a :: t2.erase a).length ≤ n := by
            have := hperm1.length_eq
            simp at this
            simp
            omega
          have hpermr : (a :: t2.erase a).Perm t2 := (List.perm_cons_erase hain).symm
          have step1 :
              (sweepGo T cur lo hi (a :: t1)).map rowMS =
                (sweepGo T cur lo hi (a :: b :: t2.erase a)).map rowMS :=
            sweepGo_tail_congr T
              (fun cur lo hi => ih t1 (b :: t2.erase a) hlent1 hs1.of_cons hsort2 hperm1
                hwf1 cur lo hi) a cur lo hi
          have step2 :
              (sweepGo T cur lo hi (a :: b :: t2.erase a)).map rowMS =
                (sweepGo T cur lo hi (b :: a :: t2.erase a)).map rowMS :=
            sweepGo_swap T hT hc hwa hwb cur lo hi (t2.erase a)
          have step3 :
              (sweepGo T cur lo hi (b :: a :: t2.erase a)).map rowMS =
                (sweepGo T cur lo hi (b :: t2)).map rowMS :=
            sweepGo_tail_congr T
              (fun cur lo hi => ih (a :: t2.erase a) t2 hlen2 hsorta hs2.of_cons hpermr
                hwfa cur lo hi) b cur lo hi
          exact (step1.trans step2).trans step3

theorem sweep_swap (T : ℚ) (hT : 0 ≤ T) {a b : Detection} (hab : yCenter a = yCenter b)
    (hwa : a.yMin ≤ a.yMax) (hwb : b.yMin ≤ b.yMax) (rest : List Detection) :
    (sweep T (a :: b :: rest)).map rowMS = (sweep T (b :: a :: rest)).map rowMS := by
  have hya1 : a.yMin ≤ yCenter a := by unfold yCenter; linarith
  have hya2 : yCenter a ≤ a.yMax := by unfold yCenter; linarith
  have hyb1 : b.yMin ≤ yCenter b := by unfold yCenter; linarith
  have hyb2 : yCenter b ≤ b.yMax := by unfold yCenter; linarith
  have h2 : a.yMin - T ≤ yCenter b ∧ yCenter b ≤ a.yMax + T := by
    rw [← hab]; exact ⟨by linarith, by linarith⟩
  have h3 : b.yMin - T ≤ yCenter a ∧ yCenter a ≤ b.yMax + T := by
    rw [hab]; exact ⟨by linarith, by linarith⟩
  simp only [sweep, sweepGo]
  rw [if_pos h2, if_pos h3, min_comm a.yMin b.yMin, max_comm a.yMax b.yMax]
  exact sweepGo_congr_cur T (List.Perm.swap a b []) rest _ _

theorem sweep_perm_sorted (T : ℚ) (hT : 0 ≤ T) (l1 l2 : List Detection)
    (hs1 : l1.Sorted yLe) (hs2 : l2.Sorted yLe) (hp : l1.Perm l2)
    (hwf : ∀ d ∈ l1, d.yMin ≤ d.yMax) :
    (sweep T l1).map rowMS = (sweep T l2).map rowMS := by
  cases l1 with
  | nil => rw [hp.symm.eq_nil]
  | cons a t1 =>
    cases l2 with
    | nil => exact absurd hp.eq_nil (by simp)
    | cons b t2 =>
      by_cases hab : a = b
      · subst hab
        simp only [sweep]
        exact sweepGo_perm_sorted T hT t1.length t1 t2 le_rfl hs1.of_cons hs2.of_cons
          hp.cons_inv (fun d hd => hwf d (List.mem_cons_of_mem a hd)) [a] a.yMin a.yMax
      · have hain : a ∈ t2 := by
          have h0 : a ∈ b :: t2 := hp.mem_iff.mp (List.mem_cons_self a t1)
          exact (List.mem_cons.mp h0).resolve_left hab
        have hbin : b ∈ t1 := by
          have h0 : b ∈ a :: t1 := hp.mem_iff.mpr (List.mem_cons_self b t2)
          exact (List.mem_cons.mp h0).resolve_left (fun e => hab e.symm)
        have hc : yCenter a = yCenter b :=
          le_antisymm (List.rel_of_sorted_cons hs1 b hbin)
            (List.rel_of_sorted_cons hs2 a hain)
        have hwa : a.yMin ≤ a.yMax := hwf a (List.mem_cons_self a t1)
        have hwb : b.yMin ≤ b.yMax := hwf b (List.mem_cons_of_mem a hbin)
        have hperm1 : t1.Perm (b :: t2.erase a) := by
          have h0 : ((a :: t1).erase a).Perm ((b :: t2).erase a) := hp.erase a
          rw [List.erase_cons_head] at h0
          rw [List.erase_cons_tail] at h0
          · exact h0
          · simp
            exact fun e => hab e.symm
        have hserase : (t2.erase a).Sorted yLe :=
          hs2.of_cons.sublist (List.erase_sublist a t2)
        have hble : ∀ x ∈ t2.erase a, yLe b x := fun x hx =>
          List.rel_of_sorted_cons hs2 x (List.mem_of_mem_erase hx)
        have hsort2 : (b :: t2.erase a).Sorted yLe :=
          List.sorted_cons.mpr ⟨hble, hserase⟩
        have hsorta : (a :: t2.erase a).Sorted yLe := by
          refine List.sorted_cons.mpr ⟨?_, hserase⟩
          intro x hx
          exact le_trans (le_of_eq hc) (hble x hx)
        have hwf1 : ∀ d ∈ t1, d.yMin ≤ d.yMax :=
          fun d hd => hwf d (List.mem_cons_of_mem a hd)
        have hwf2 : ∀ d ∈ b :: t2.erase a, d.yMin ≤ d.yMax :=
          fun d hd => hwf1 d (hperm1.mem_iff.mpr hd)
        have hwfa : ∀ d ∈ a :: t2.erase a, d.yMin ≤ d.yMax := by
          intro d hd
          rcases List.mem_cons.mp hd with rfl | hd2
          · exact hwa
          · exact hwf2 d (List.mem_cons_of_mem b hd2)
        have hpermr : (a :: t2.erase a).Perm t2 := (List.perm_cons_erase hain).symm
        have step1 : (sweep T (a :: t1)).map rowMS =
            (sweep T (a :: b :: t2.erase a)).map rowMS := by
          simp only [sweep]
          exact sweepGo_perm_sorted T hT t1.length t1 (b :: t2.erase a) le_rfl
            hs1.of_cons hsort2 hperm1 hwf1 [a] a.yMin a.yMax
        have step2 : (sweep T (a :: b :: t2.erase a)).map rowMS =
            (sweep T (b :: a :: t2.erase a)).map rowMS :=
          sweep_swap T hT hc hwa hwb (t2.erase a)
        have step3 : (sweep T (b :: a :: t2.erase a)).map rowMS =
            (sweep T (b :: t2)).map rowMS := by
          simp only [sweep]
          exact sweepGo_perm_sorted T hT t2.length (a :: t2.erase a) t2
            (le_of_eq hpermr.length_eq) hsorta hs2.of_cons hpermr hwfa [b] b.yMin b.yMax
        exact (step1.trans step2).trans step3

theorem medianHeight_perm {l1 l2 : List Detection} (hp : l1.Perm l2) :
    medianHeight l1 = medianHeight l2 := by
  unfold medianHeight
  have heq : List.insertionSort (fun a b : ℚ => a ≤ b) (l1.map detHeight) =
      List.insertionSort (fun a b : ℚ => a ≤ b) (l2.map detHeight) :=
    List.eq_of_perm_of_sorted
      ((List.perm_insertionSort _ _).trans
        ((hp.map detHeight).trans (List.perm_insertionSort _ _).symm))
      (List.sorted_insertionSort _ _) (List.sorted_insertionSort _ _)
  rw [heq]

theorem tol_perm (cfg : Config) {l1 l2 : List Detection} (hp : l1.Perm l2) :
    tol cfg l1 = tol cfg l2 := by
  unfold tol
  rw [medianHeight_perm hp]

theorem wellFormed_yMinMax {d : Detection} (h : wellFormedDet d = true) :
    d.yMin ≤ d.yMax := by
  unfold wellFormedDet at h
  simp only [Bool.and_eq_true, decide_eq_true_eq] at h
  linarith [h.1]

theorem map_rowMS_xsort (rows : List (List Detection)) :
    (rows.map (List.insertionSort xLe)).map rowMS = rows.map rowMS := by
  rw [List.map_map]
  apply List.map_congr_left
  intro r _
  exact Multiset.coe_eq_coe.mpr (List.perm_insertionSort xLe r)

theorem rowYCenter_perm {r1 r2 : List Detection} (h : r1.Perm r2) :
    rowYCenter r1 = rowYCenter r2 := by
  unfold rowYCenter
  rw [(h.map yCenter).sum_eq, h.length_eq]

theorem map_rowYCenter_congr : ∀ {rows1 rows2 : List (List Detection)},
    rows1.map rowMS = rows2.map rowMS → rows1.map rowYCenter = rows2.map rowYCenter := by
  intro rows1
  induction rows1 with
  | nil =>
    intro rows2 h
    cases rows2 with
    | nil => rfl
    | cons r2 t2 => simp at h
  | cons r t ih =>
    intro rows2 h
    cases rows2 with
    | nil => simp at h
    | cons r2 t2 =>
      simp only [List.map_cons, List.cons.injEq] at h ⊢
      exact ⟨rowYCenter_perm (Multiset.coe_eq_coe.mp h.1), ih h.2⟩

theorem sweepGo_mem (T : ℚ) :
    ∀ (l cur : List Detection) (lo hi : ℚ) (r : List Detection),
      r ∈ sweepGo T cur lo hi l → ∀ x ∈ r, x ∈ cur ∨ x ∈ l := by
  intro l
  induction l with
  | nil =>
    intro cur lo hi r hr x hx
    simp only [sweepGo, List.mem_singleton] at hr
    subst hr
    exact Or.inl (List.mem_reverse.mp hx)
  | cons d ds ih =>
    intro cur lo hi r hr x hx
    simp only [sweepGo] at hr
    by_cases h : lo - T ≤ yCenter d ∧ yCenter d ≤ hi + T
    · rw [if_pos h] at hr
      rcases ih _ _ _ r hr x hx with h2 | h2
      · rcases List.mem_cons.mp h2 with rfl | h3
        · exact Or.inr (List.mem_cons_self x ds)
        · exact Or.inl h3
      · exact Or.inr (List.mem_cons_of_mem d h2)
    · rw [if_neg h] at hr
      rcases List.mem_cons.mp hr with rfl | h2
      · exact Or.inl (List.mem_reverse.mp hx)
      · rcases ih _ _ _ r h2 x hx with h3 | h3
        · rw [List.mem_singleton.mp h3]
          exact Or.inr (List.mem_cons_self d ds)
        · exact Or.inr (List.mem_cons_of_mem d h3)

theorem sweepGo_ne_nil (T : ℚ) :
    ∀ (l cur : List Detection) (lo hi : ℚ) (r : List Detection),
      r ∈ sweepGo T cur lo hi l → cur ≠ [] → r ≠ [] := by
  intro l
  induction l with
  | nil =>
    intro cur lo hi r hr hc
    simp only [sweepGo, List.mem_singleton] at hr
    subst hr
    simpa using hc
  | cons d ds ih =>
    intro cur lo hi r hr hc
    simp only [sweepGo] at hr
    by_cases h : lo - T ≤ yCenter d ∧ yCenter d ≤ hi + T
    · rw [if_pos h] at hr
      exact ih _ _ _ r hr (by simp)
    · rw [if_neg h] at hr
      rcases List.mem_cons.mp hr with rfl | h2
      · simpa using hc
      · exact ih _ _ _ r h2 (by simp)

theorem sweepGo_chain (T : ℚ) (hT : 0 ≤ T) :
    ∀ l : List Detection, l.Sorted yLe → (∀ d ∈ l, d.yMin ≤ d.yMax) →
      ∀ (cur : List Detection) (lo hi : ℚ),
        (∀ c ∈ cur, ∀ d ∈ l, yCenter c ≤ yCenter d) →
        (∀ c ∈ cur, lo ≤ yCenter c ∧ yCenter c ≤ hi) →
        List.Chain' rowBelow (sweepGo T cur lo hi l) := by
  intro l
  induction l with
  | nil =>
    intro _ _ cur lo hi _ _
    simp only [sweepGo]
    exact List.chain'_singleton _
  | cons d ds ih =>
    intro hs hwf cur lo hi hcl hbounds
    have hwd : d.yMin ≤ d.yMax := hwf d (List.mem_cons_self d ds)
    have hyd1 : d.yMin ≤ yCenter d := by unfold yCenter; linarith
    have hyd2 : yCenter d ≤ d.yMax := by unfold yCenter; linarith
    simp only [sweepGo]
    by_cases h : lo - T ≤ yCenter d ∧ yCenter d ≤ hi + T
    · rw [if_pos h]
      apply ih hs.of_cons (fun e he => hwf e (List.mem_cons_of_mem d he))
      · intro c hc e he
        rcases List.mem_cons.mp hc with rfl | hc2
        · exact List.rel_of_sorted_cons hs e he
        · exact hcl c hc2 e (List.mem_cons_of_mem d he)
      · intro c hc
        rcases List.mem_cons.mp hc with rfl | hc2
        · exact ⟨le_trans (min_le_right lo c.yMin) hyd1, le_trans hyd2 (le_max_right hi c.yMax)⟩
        · obtain ⟨hb1, hb2⟩ := hbounds c hc2
          exact ⟨le_trans (min_le_left _ _) hb1, le_trans hb2 (le_max_left _ _)⟩
    · rw [if_neg h]
      have hdgt : ∀ c ∈ cur, yCenter c < yCenter d := by
        intro c hc
        have h1 : lo - T ≤ yCenter d := by
          have hb1 := (hbounds c hc).1
          have hb2 := hcl c hc d (List.mem_cons_self d ds)
          linarith
        have h2 : hi + T < yCenter d := by
          by_contra hcon
          push_neg at hcon
          exact h ⟨h1, hcon⟩
        have hb2 := (hbounds c hc).2
        linarith
      rw [List.chain'_cons']
      constructor
      · intro r2 hr2
        have hr2mem : r2 ∈ sweepGo T [d] d.yMin d.yMax ds := List.mem_of_mem_head? hr2
        intro x hx y hy
        have hx2 : x ∈ cur := List.mem_reverse.mp hx
        have hy2 : y ∈ ([d] : List Detection) ∨ y ∈ ds :=
          sweepGo_mem T ds [d] _ _ r2 hr2mem y hy
        have hyge : yCenter d ≤ yCenter y := by
          rcases hy2 with h3 | h3
          · rw [List.mem_singleton.mp h3]
          · exact List.rel_of_sorted_cons hs y h3
        exact lt_of_lt_of_le (hdgt x hx2) hyge
      · apply ih hs.of_cons (fun e he => hwf e (List.mem_cons_of_mem d he))
        · intro c hc e he
          rw [List.mem_singleton.mp hc]
          exact List.rel_of_sorted_cons hs e he
        · intro c hc
          rw [List.mem_singleton.mp hc]
          exact ⟨hyd1, hyd2⟩

theorem list_sum_lt_length_mul {l : List ℚ} {c : ℚ} (hne : l ≠ [])
    (h : ∀ x ∈ l, x < c) : l.sum < l.length * c := by
  induction l with
  | nil => exact absurd rfl hne
  | cons x t ih =>
    cases t with
    | nil => simpa using h x (List.mem_cons_self x [])
    | cons y u =>
      have ht := ih (by simp) (fun z hz => h z (List.mem_cons_of_mem x hz))
      have hx := h x (List.mem_cons_self x (y :: u))
      simp only [List.sum_cons, List.length_cons] at ht ⊢
      push_cast at ht ⊢
      linarith

theorem list_length_mul_lt_sum {l : List ℚ} {c : ℚ} (hne : l ≠ [])
    (h : ∀ x ∈ l, c < x) : (l.length : ℚ) * c < l.sum := by
  induction l with
  | nil => exact absurd rfl hne
  | cons x t ih =>
    cases t with
    | nil => simpa using h x (List.mem_cons_self x [])
    | cons y u =>
      have ht := ih (by simp) (fun z hz => h z (List.mem_cons_of_mem x hz))
      have hx := h x (List.mem_cons_self x (y :: u))
      simp only [List.sum_cons, List.length_cons] at ht ⊢
      push_cast at ht ⊢
      linarith

theorem rowYCenter_lt {r1 r2 : List Detection} (h1 : r1 ≠ []) (h2 : r2 ≠ [])
    (hd : rowBelow r1 r2) : rowYCenter r1 < rowYCenter r2 := by
  have hl1 : (0 : ℚ) < r1.length := by
    exact_mod_cast List.length_pos.mpr h1
  have hl2 : (0 : ℚ) < r2.length := by
    exact_mod_cast List.length_pos.mpr h2
  have hstep1 : ∀ b ∈ r2, rowYCenter r1 < yCenter b := by
    intro b hb
    rw [rowYCenter, div_lt_iff hl1]
    have hsum : (r1.map yCenter).sum < (r1.map yCenter).length * yCenter b := by
      apply list_sum_lt_length_mul (by simpa using h1)
      intro x hx
      obtain ⟨a, ha, rfl⟩ := List.mem_map.mp hx
      exact hd a ha b hb
    simpa [mul_comm] using hsum
  have hsum2 : ((r2.map yCenter).length : ℚ) * rowYCenter r1 < (r2.map yCenter).sum := by
    apply list_length_mul_lt_sum (by simpa using h2)
    intro x hx
    obtain ⟨b, hb, rfl⟩ := List.mem_map.mp hx
    exact hstep1 b hb
  rw [show rowYCenter r2 = (r2.map yCenter).sum / (r2.length : ℚ) from rfl, lt_div_iff hl2]
  simpa [mul_comm] using hsum2

theorem chain_lt_of_chain_rowBelow :
    ∀ rows : List (List Detection), (∀ r ∈ rows, r ≠ []) →
      List.Chain' rowBelow rows →
      List.Chain' (fun a b : ℚ => a < b) (rows.map rowYCenter) := by
  intro rows
  induction rows with
  | nil => intro _ _; simp
  | cons r rest ih =>
    intro hnn hc
    cases rest with
    | nil => simp
    | cons r2 rest2 =>
      rw [List.chain'_cons] at hc
      simp only [List.map_cons]
      rw [List.chain'_cons]
      constructor
      · exact rowYCenter_lt (hnn r (List.mem_cons_self r _))
          (hnn r2 (List.mem_cons_of_mem r (List.mem_cons_self r2 _))) hc.1
      · have := ih (fun x hx => hnn x (List.mem_cons_of_mem r hx)) hc.2
        simpa using this

theorem containsSeq_nil_needle : ∀ l : List Char, containsSeq [] l = true
  | [] => rfl
  | _ :: _ => rfl

theorem groupRows_sorted_yCenters (cfg : Config) (l : List Detection)
    (hwf : ∀ d ∈ l, wellFormedDet d = true) (ht : 0 ≤ cfg.tMin) :
    List.Sorted (fun a b : ℚ => a < b) ((groupRows cfg l).map rowYCenter) := by
  have hT : 0 ≤ tol cfg l := le_trans ht (le_max_right _ _)
  have hsort0 : (List.insertionSort yLe l).Sorted yLe := List.sorted_insertionSort yLe l
  have hwf0 : ∀ d ∈ List.insertionSort yLe l, d.yMin ≤ d.yMax := fun d hd =>
    wellFormed_yMinMax (hwf d ((List.perm_insertionSort yLe l).mem_iff.mp hd))
  unfold groupRows
  cases hs : List.insertionSort yLe l with
  | nil => simp [sweep]
  | cons d ds =>
    rw [hs] at hsort0 hwf0
    have hwd : d.yMin ≤ d.yMax := hwf0 d (List.mem_cons_self d ds)
    have hyd1 : d.yMin ≤ yCenter d := by unfold yCenter; linarith
    have hyd2 : yCenter d ≤ d.yMax := by unfold yCenter; linarith
    simp only [sweep]
    have hchain : List.Chain' rowBelow (sweepGo (tol cfg l) [d] d.yMin d.yMax ds) := by
      apply sweepGo_chain _ hT ds hsort0.of_cons
        (fun e he => hwf0 e (List.mem_cons_of_mem d he))
      · intro c hc e he
        rw [List.mem_singleton.mp hc]
        exact List.rel_of_sorted_cons hsort0 e he
      · intro c hc
        rw [List.mem_singleton.mp hc]
        exact ⟨hyd1, hyd2⟩
    have hnn : ∀ r ∈ sweepGo (tol cfg l) [d] d.yMin d.yMax ds, r ≠ [] := fun r hr =>
      sweepGo_ne_nil _ ds [d] _ _ r hr (by simp)
    have hchain2 : List.Chain' rowBelow
        ((sweepGo (tol cfg l) [d] d.yMin d.yMax ds).map (List.insertionSort xLe)) := by
      rw [List.chain'_map]
      apply hchain.imp
      intro r1 r2 hb x hx y hy
      exact hb x ((List.perm_insertionSort xLe r1).mem_iff.mp hx) y
        ((List.perm_insertionSort xLe r2).mem_iff.mp hy)
    have hnn2 : ∀ r ∈ (sweepGo (tol cfg l) [d] d.yMin d.yMax ds).map
        (List.insertionSort xLe), r ≠ [] := by
      intro r hr
      obtain ⟨r0, hr0, rfl⟩ := List.mem_map.mp hr
      intro hcon
      apply hnn r0 hr0
      apply List.length_eq_zero.mp
      rw [← (List.perm_insertionSort xLe r0).length_eq, hcon]
      rfl
    exact List.chain'_iff_pairwise.mp (chain_lt_of_chain_rowBelow _ hnn2 hchain2)

/-! ## Claim theorems -/

/-- C7: the pipeline is deterministic; in this pure embedding both runs of
the extraction on the same detection list produce the identical encoded
output, so idempotence holds by construction. -/
theorem c7_pipeline_deterministic (cfg : Config) (dictLookup : String → Option String)
    (l : List Detection) :
    (runExtractionTwice cfg dictLookup l).1 = (runExtractionTwice cfg dictLookup l).2 := rfl

/-- C8: the Normal Range count plus the Out of Range count equals the
total record count, and a row's status badge reads Out of Range exactly
when the record's lab_test_out_of_range flag is true. -/
theorem c8_counts_and_badges (data : List LabResult) :
    normalCount data + outOfRangeCount data = data.length ∧
      ∀ r : LabResult, badgeText r = "Out of Range" ↔ r.lab_test_out_of_range = true := by
  constructor
  · exact length_filter_bool_split data
  · intro r
    unfold badgeText
    by_cases h : r.lab_test_out_of_range = true
    · simp [h]
    · simp at h
      simp [h]

/-- C10: starting from zoom 1 and rotation 0, every sequence of zoom-in,
zoom-out and rotate actions keeps the zoom factor within [0.5, 3] and
the rotation inside the set of right angles. -/
theorem c10_preview_invariants (acts : List PreviewAction) :
    1 / 2 ≤ (runPreview acts).1 ∧ (runPreview acts).1 ≤ 3 ∧
      (runPreview acts).2 ∈ ([0, 90, 180, 270] : List ℤ) :=
  foldl_stepPreview_inv acts (1, 0) (by norm_num)

/-- C4: the range evaluator flags a record out of range exactly when the
parsed value is strictly outside the parsed bounds, and every value equal
to a range endpoint (including the threshold of a one-sided range; for a
two-sided range this presupposes the non-inverted reading low ≤ high) is
not flagged: boundaries are inclusive. -/
theorem c4_range_boundaries (vs rs : String) (x : ℚ) (hv : parseValue vs = some x) :
    (∀ lo hi, parseRange rs = RefRange.between lo hi →
      ((evalOutOfRange vs rs = true ↔ x < lo ∨ hi < x) ∧
        (lo ≤ hi → x = lo ∨ x = hi → evalOutOfRange vs rs = false))) ∧
    (∀ t, parseRange rs = RefRange.below t →
      ((evalOutOfRange vs rs = true ↔ t < x) ∧ (x = t → evalOutOfRange vs rs = false))) ∧
    (∀ t, parseRange rs = RefRange.above t →
      ((evalOutOfRange vs rs = true ↔ x < t) ∧ (x = t → evalOutOfRange vs rs = false))) := by
  refine ⟨?_, ?_, ?_⟩
  · intro lo hi hr
    have he : evalOutOfRange vs rs = (decide (x < lo) || decide (hi < x)) := by
      unfold evalOutOfRange
      rw [hv, hr]
    constructor
    · rw [he]
      simp [decide_eq_true_eq]
    · intro hle hb
      rw [he]
      rcases hb with h | h <;> subst h <;> simp <;> linarith
  · intro t hr
    have he : evalOutOfRange vs rs = decide (t < x) := by
      unfold evalOutOfRange
      rw [hv, hr]
    constructor
    · rw [he]; simp [decide_eq_true_eq]
    · intro h; subst h; rw [he]; simp
  · intro t hr
    have he : evalOutOfRange vs rs = decide (x < t) := by
      unfold evalOutOfRange
      rw [hv, hr]
    constructor
    · rw [he]; simp [decide_eq_true_eq]
    · intro h; subst h; rw [he]; simp

/-- Witness for C4 at the spec's scenario 5: value 5 against the range
below 5 sits on the boundary and is not flagged. -/
theorem c4_range_boundaries_witness : evalOutOfRange "5" "<5" = false := by
  have h := c4_range_boundaries "5" "<5" 5 (by with_unfolding_all decide)
  exact (h.2.1 5 (by with_unfolding_all decide)).2 rfl

theorem pickBest_mem : ∀ {cs : List Candidate} {c : Candidate}, pickBest cs = some c → c ∈ cs := by
  intro cs
  induction cs with
  | nil => intro c h; exact absurd h (by simp [pickBest])
  | cons a t ih =>
    intro c h
    unfold pickBest at h
    cases hb : pickBest t with
    | none => rw [hb] at h; injection h with h; exact h ▸ List.mem_cons_self a t
    | some d =>
      rw [hb] at h
      injection h with h
      by_cases hc : d.conf > a.conf
      · rw [if_pos hc] at h; exact h ▸ List.mem_cons_of_mem a (ih hb)
      · rw [if_neg hc] at h; exact h ▸ List.mem_cons_self a t

theorem usable_of_pickBest_filter {l : List Candidate} {c : Candidate}
    (h : pickBest (l.filter usable) = some c) : usable c = true :=
  (List.mem_filter.mp (pickBest_mem h)).2

theorem resolveRow_usable {dictLookup : String → Option String} {row : List Detection}
    {c : Candidate} (h : resolveRow dictLookup row = some c) : usable c = true := by
  unfold resolveRow at h
  split at h
  · injection h with h
    next d hab => exact h ▸ usable_of_pickBest_filter hab
  · exact usable_of_pickBest_filter h

theorem mem_processedData_matches {lc : String → String → Int} {data : List LabResult}
    {st : String} {sf : Option SortField} {sd : Option SortDir} {r : LabResult}
    (h : r ∈ processedData lc data st sf sd) : matchesSearch st r = true := by
  have hf : r ∈ data.filter (matchesSearch st) := by
    cases sf with
    | none => simpa [processedData] using h
    | some f =>
      cases sd with
      | none => simpa [processedData] using h
      | some dir =>
        simp only [processedData] at h
        exact (List.perm_insertionSort (sortLe lc f dir) _).mem_iff.mp h
  exact (List.mem_filter.mp hf).2

/-- C9: the CSV export is the header line followed by one row per
currently displayed record (after the active search filter and sort), in
display order; the Status cell is the quoted Out of Range or Normal text
according to the record's flag, and a record excluded by the search term
contributes no row. -/
theorem c9_csv_export (lc : String → String → Int) (data : List LabResult) (st : String)
    (sf : Option SortField) (sd : Option SortDir) :
    (csvLines lc data st sf sd).length = (processedData lc data st sf sd).length + 1 ∧
    csvLines lc data st sf sd = csvHeader :: (processedData lc data st sf sd).map csvRow ∧
    (∀ r : LabResult, (csvFields r).getLast? =
      some (csvQuote (if r.lab_test_out_of_range then "Out of Range" else "Normal"))) ∧
    (∀ r ∈ data, matchesSearch st r = false → r ∉ processedData lc data st sf sd) ∧
    exportToCSV lc data st sf sd = String.intercalate "\n" (csvLines lc data st sf sd) := by
  refine ⟨by simp [csvLines], rfl, ?_, ?_, rfl⟩
  · intro r
    cases h : r.lab_test_out_of_range <;> simp [csvFields, badgeText, h]
  · intro r _ hm hmem
    rw [mem_processedData_matches hmem] at hm
    exact Bool.noConfusion hm

/-- Witness for C9: a record that does not match the active search term is
absent from the displayed data that the export iterates over. -/
theorem c9_csv_export_witness : rec0 ∉ processedData lcZero data0 "zz" none none :=
  (c9_csv_export lcZero data0 "zz" none none).2.2.2.1 rec0 (by decide)
    (by with_unfolding_all decide)

/-- C1 counterexample: at a concrete successful call the response body is
the is_success/data/pdf_path envelope consumed by handleUpload in
src/app/page.tsx, not the bare record list, so the claim that the body
itself is the ordered list fails. -/
theorem c1_counterexample :
    routePOST cfg0 dictNone "report.pdf" (some file0) (some "Jane") ≠
      RouteResponse.ok (encodeRecords (pipelineOnValid cfg0 dictNone
        (normalizeList file0.detections))) := by
  intro h
  have h2 : routePOST cfg0 dictNone "report.pdf" (some file0) (some "Jane") =
      RouteResponse.ok (successBody "report.pdf" (pipelineOnValid cfg0 dictNone
        (normalizeList file0.detections))) := by
    with_unfolding_all rfl
  rw [h2] at h
  injection h with hb
  unfold successBody encodeRecords at hb
  exact Json.noConfusion hb

/-- C1 amended: a successful extraction call returns a JSON object whose
data field is the ordered list of encoded records; each encoded record
has exactly the five fields test_name, test_value, bio_reference_range,
test_unit and lab_test_out_of_range, in that order, with the last one a
boolean. -/
theorem c1_response_shape (cfg : Config) (dictLookup : String → Option String)
    (pdfPath : String) (f : UploadedFile) (p : String) (hp : p ≠ "")
    (hwf : f.detections.all wellFormedDet = true) :
    ∃ recs : List LabResult,
      routePOST cfg dictLookup pdfPath (some f) (some p) =
        RouteResponse.ok (successBody pdfPath recs) ∧
      recs = pipelineOnValid cfg dictLookup (normalizeList f.detections) ∧
      lookupField (successBody pdfPath recs) "data" =
        some (Json.arr (recs.map encodeRecord)) ∧
      ∀ r ∈ recs, objKeys (encodeRecord r) = recordKeys ∧
        lookupField (encodeRecord r) "lab_test_out_of_range" =
          some (Json.bool r.lab_test_out_of_range) := by
  refine ⟨pipelineOnValid cfg dictLookup (normalizeList f.detections), ?_, rfl, rfl, ?_⟩
  · simp [routePOST, backendExtract, normalize, hwf, hp, Except.map]
  · intro r _
    exact ⟨rfl, rfl⟩

/-- Witness for C1: the scenario-1 upload produces a success envelope. -/
theorem c1_response_shape_witness :
    ∃ recs : List LabResult,
      routePOST cfg0 dictNone "report.pdf" (some file0) (some "Jane") =
        RouteResponse.ok (successBody "report.pdf" recs) := by
  obtain ⟨recs, h1, -, -, -⟩ :=
    c1_response_shape cfg0 dictNone "report.pdf" file0 "Jane" (by decide)
      (by with_unfolding_all decide)
  exact ⟨recs, h1⟩

/-- C2 counterexample: with the file present and well formed and the
patient name present but equal to the empty string, nothing is missing
from the form data, yet the route rejects the request, because the
source's falsiness check also rejects an empty patient name. -/
theorem c2_counterexample :
    (routePOST cfg0 dictNone "report.pdf" (some file0) (some "")).isErr = true ∧
      file0.detections.all wellFormedDet = true :=
  ⟨rfl, by with_unfolding_all decide⟩

/-- C2 amended: the request fails if and only if the file is missing, the
patient name is missing or empty, or the detection list behind the file
is structurally malformed; every request passing these checks receives
the full (possibly empty) record list, so no row-level failure is fatal. -/
theorem c2_error_iff (cfg : Config) (dictLookup : String → Option String) (pdfPath : String)
    (fileField : Option UploadedFile) (patientField : Option String) :
    ((routePOST cfg dictLookup pdfPath fileField patientField).isErr = true ↔
      fileField = none ∨ patientField = none ∨ patientField = some "" ∨
        ∃ f, fileField = some f ∧ f.detections.all wellFormedDet = false) ∧
    (∀ f p, fileField = some f → patientField = some p → p ≠ "" →
      f.detections.all wellFormedDet = true →
      routePOST cfg dictLookup pdfPath fileField patientField =
        RouteResponse.ok (successBody pdfPath
          (pipelineOnValid cfg dictLookup (normalizeList f.detections)))) := by
  constructor
  · cases fileField with
    | none => simp [routePOST, RouteResponse.isErr]
    | some f =>
      cases patientField with
      | none => simp [routePOST, RouteResponse.isErr]
      | some p =>
        by_cases hp : p = ""
        · subst hp
          simp [routePOST, RouteResponse.isErr]
        · by_cases hwf : f.detections.all wellFormedDet = true
          · simp [routePOST, backendExtract, normalize, hp, hwf, RouteResponse.isErr,
              Except.map]
            simpa using hwf
          · simp only [Bool.not_eq_true] at hwf
            simp [routePOST, backendExtract, normalize, hp, hwf, RouteResponse.isErr,
              Except.map]
            simpa using hwf
  · intro f p hf hpz hp hwf
    subst hf
    subst hpz
    simp [routePOST, backendExtract, normalize, hp, hwf, Except.map]

/-- Witness for C2: the scenario-1 upload passes the structural checks and
receives the full record list. -/
theorem c2_error_iff_witness :
    routePOST cfg0 dictNone "report.pdf" (some file0) (some "Jane") =
      RouteResponse.ok (successBody "report.pdf"
        (pipelineOnValid cfg0 dictNone (normalizeList file0.detections))) :=
  (c2_error_iff cfg0 dictNone "report.pdf" (some file0) (some "Jane")).2 file0 "Jane"
    rfl rfl (by decide) (by with_unfolding_all decide)

/-- C3: every record the pipeline emits has a non-empty test name and a
non-empty test value, and a row for which no strategy offers a usable
candidate yields no record at all. -/
theorem c3_nonempty_fields (cfg : Config) (dictLookup : String → Option String)
    (l : List Detection) :
    (∀ r ∈ pipelineOnValid cfg dictLookup l, r.test_name ≠ "" ∧ r.test_value ≠ "") ∧
    (∀ row : List Detection, (∀ c ∈ candidatesOf dictLookup row, usable c = false) →
      recordOfRow dictLookup row = none) := by
  constructor
  · intro r hr
    obtain ⟨row, -, hrow⟩ := List.mem_filterMap.mp hr
    obtain ⟨c, hc, hmk⟩ := Option.map_eq_some'.mp hrow
    have hu := resolveRow_usable hc
    unfold usable at hu
    simp only [Bool.and_eq_true, Bool.not_eq_true'] at hu
    subst hmk
    refine ⟨?_, ?_⟩
    · simpa [mkRecord, ← String.isEmpty_iff] using hu.1
    · simpa [mkRecord, ← String.isEmpty_iff] using hu.2
  · intro row hall
    have h1 : ((stratA row).toList ++ (stratB row).toList).filter usable = [] := by
      rw [List.filter_eq_nil_iff]
      intro c hc
      have : c ∈ candidatesOf dictLookup row := by
        unfold candidatesOf
        rcases List.mem_append.mp hc with h | h
        · exact List.mem_append.mpr (Or.inl (List.mem_append.mpr (Or.inl h)))
        · exact List.mem_append.mpr (Or.inl (List.mem_append.mpr (Or.inr h)))
      simp [hall c this]
    have h2 : ((stratC dictLookup row).toList).filter usable = [] := by
      rw [List.filter_eq_nil_iff]
      intro c hc
      have : c ∈ candidatesOf dictLookup row := by
        unfold candidatesOf
        exact List.mem_append.mpr (Or.inr hc)
      simp [hall c this]
    unfold recordOfRow resolveRow
    rw [h1, h2]
    rfl

/-- C5: row grouping depends only on the geometry of the (well-formed)
detections, not on input order: permuting the detection list yields the
same rows with the same membership and the same y_center sequence. -/
theorem c5_grouping_perm_invariant (cfg : Config) (l1 l2 : List Detection)
    (hp : l1.Perm l2) (hwf : ∀ d ∈ l1, wellFormedDet d = true) (ht : 0 ≤ cfg.tMin) :
    (groupRows cfg l1).map rowMS = (groupRows cfg l2).map rowMS ∧
      (groupRows cfg l1).map rowYCenter = (groupRows cfg l2).map rowYCenter := by
  have hT : 0 ≤ tol cfg l1 := le_trans ht (le_max_right _ _)
  have hsweep : (sweep (tol cfg l1) (List.insertionSort yLe l1)).map rowMS =
      (sweep (tol cfg l2) (List.insertionSort yLe l2)).map rowMS := by
    rw [← tol_perm cfg hp]
    apply sweep_perm_sorted _ hT
    · exact List.sorted_insertionSort yLe l1
    · exact List.sorted_insertionSort yLe l2
    · exact (List.perm_insertionSort yLe l1).trans
        (hp.trans (List.perm_insertionSort yLe l2).symm)
    · intro d hd
      exact wellFormed_yMinMax (hwf d ((List.perm_insertionSort yLe l1).mem_iff.mp hd))
  have h1 : (groupRows cfg l1).map rowMS = (groupRows cfg l2).map rowMS := by
    unfold groupRows
    rw [map_rowMS_xsort, map_rowMS_xsort]
    exact hsweep
  exact ⟨h1, map_rowYCenter_congr h1⟩

/-- C6: final records follow document row order: rows come in strictly
increasing y_center and records are emitted in row order; the results
table without a selected sort displays the received records in received
order, and the search filter keeps the relative order of the records it
retains. -/
theorem c6_ordering (cfg : Config) (dictLookup : String → Option String)
    (lc : String → String → Int) (l : List Detection) (data : List LabResult) (st : String)
    (hwf : ∀ d ∈ l, wellFormedDet d = true) (ht : 0 ≤ cfg.tMin) :
    List.Sorted (fun a b : ℚ => a < b) ((groupRows cfg l).map rowYCenter) ∧
    pipelineOnValid cfg dictLookup l = (groupRows cfg l).filterMap (recordOfRow dictLookup) ∧
    processedData lc data "" none none = data ∧
    (processedData lc data st none none).Sublist data := by
  refine ⟨groupRows_sorted_yCenters cfg l hwf ht, rfl, ?_, List.filter_sublist data⟩
  show data.filter (matchesSearch "") = data
  apply List.filter_eq_self.mpr
  intro r _
  unfold matchesSearch
  rw [show "".toLower.toList = ([] : List Char) by with_unfolding_all rfl,
    containsSeq_nil_needle, Bool.true_or]

/-- Witness for C6: the scenario-1 rows are sorted by y_center and pass
through the pipeline in row order. -/
theorem c6_ordering_witness :
    List.Sorted (fun a b : ℚ => a < b) ((groupRows cfg0 dets0).map rowYCenter) ∧
      processedData lcZero data0 "" none none = data0 :=
  have h := c6_ordering cfg0 dictNone lcZero dets0 data0 "zz"
    (by with_unfolding_all decide) (by with_unfolding_all decide)
  ⟨h.1, h.2.2.1⟩

/-- Witness for C5: swapping two concrete detections leaves the grouped
row contents unchanged. -/
theorem c5_grouping_perm_invariant_witness :
    (groupRows cfg0 [det1, det2]).map rowMS = (groupRows cfg0 [det2, det1]).map rowMS :=
  (c5_grouping_perm_invariant cfg0 [det1, det2] [det2, det1]
    (List.Perm.swap det2 det1 []) (by with_unfolding_all decide)
    (by with_unfolding_all decide)).1

/-- Witness for C3: the scenario-1 record has non-empty required fields. -/
theorem c3_nonempty_fields_witness : rec0.test_name ≠ "" ∧ rec0.test_value ≠ "" :=
  (c3_nonempty_fields cfg0 dictNone dets0).1 rec0 (by with_unfolding_all decide)

end MediParser
